import Mathlib

/-!
Verification of the Minesweeper knowledge-based inference engine
(`minesweeper.py`): a shallow embedding of the `Sentence` and
`MinesweeperAI` classes, together with proofs about the recorded claims.

Cells are integer coordinate pairs.  Python sets of cells become `Finset`,
Python ints become `ℤ`, the mutable engine object becomes an explicit
state record threaded through pure functions, and the in-place loops of
`update_known_cells` and the subset-inference block of `add_knowledge`
become folds over the very same iteration sequences the source uses.
-/

/-- A board cell: a pair of integer coordinates `(row, col)`. -/
abbrev Cell : Type := ℤ × ℤ

/-- Row-major ordering on cells, used only to serialize a Python set into a
concrete iteration sequence (set-iteration order is unspecified in the
source, and the marking operations below commute, so any order is a
faithful refinement). -/
def cellLe (c c' : Cell) : Prop :=
  c.1 < c'.1 ∨ (c.1 = c'.1 ∧ c.2 ≤ c'.2)

instance : DecidableRel cellLe := fun c c' =>
  inferInstanceAs (Decidable (c.1 < c'.1 ∨ (c.1 = c'.1 ∧ c.2 ≤ c'.2)))

instance : IsTrans Cell cellLe := by
  constructor; intro a b c hab hbc
  rcases hab with h1 | ⟨h1, h2⟩ <;> rcases hbc with h3 | ⟨h3, h4⟩ <;>
    unfold cellLe <;> omega

instance : IsAntisymm Cell cellLe := by
  constructor; intro a b hab hba
  have : a.1 = b.1 ∧ a.2 = b.2 := by
    rcases hab with h1 | ⟨h1, h2⟩ <;> rcases hba with h3 | ⟨h3, h4⟩ <;> omega
  exact Prod.ext this.1 this.2

instance : IsTotal Cell cellLe := by
  constructor; intro a b; unfold cellLe; omega

/-- Serialize a finite set of cells into a sorted list, fixing the
unspecified Python set-iteration order.  (Insertion sort is used so that the
definition reduces inside the kernel.) -/
def cellList (s : Finset Cell) : List Cell :=
  Quot.liftOn s.val (fun l => l.insertionSort cellLe)
    (fun l₁ l₂ h =>
      List.eq_of_perm_of_sorted
        ((List.perm_insertionSort cellLe l₁).trans
          ((Quotient.exact (Quot.sound h)).trans
            (List.perm_insertionSort cellLe l₂).symm))
        (List.sorted_insertionSort cellLe l₁)
        (List.sorted_insertionSort cellLe l₂))

theorem mem_cellList (s : Finset Cell) (c : Cell) :
    c ∈ cellList s ↔ c ∈ s := by
  obtain ⟨m, hm⟩ := s
  rw [Finset.mem_mk]
  revert hm
  induction m using Quot.inductionOn with
  | _ l =>
      intro hm
      show c ∈ l.insertionSort cellLe ↔ _
      rw [(List.perm_insertionSort cellLe l).mem_iff]
      exact Iff.rfl

/-- `Sentence` (minesweeper.py lines 87-150): a set of board cells together
with the count of how many of them are mines. -/
structure Sentence where
  cells : Finset Cell
  count : ℤ
deriving DecidableEq

namespace Sentence

/-- `Sentence.known_mines` (lines 108-118): all cells are mines exactly when
the number of cells equals the (positive) count. -/
def known_mines (s : Sentence) : Finset Cell :=
  if (s.cells.card : ℤ) = s.count ∧ 0 < s.count then s.cells else ∅

/-- `Sentence.known_safes` (lines 120-129): all cells are safe exactly when
the count is zero. -/
def known_safes (s : Sentence) : Finset Cell :=
  if s.count = 0 then s.cells else ∅

/-- `Sentence.mark_mine` (lines 131-140): if the cell is in the sentence,
remove it and decrement the count. -/
def mark_mine (s : Sentence) (cell : Cell) : Sentence :=
  if cell ∈ s.cells then ⟨s.cells.erase cell, s.count - 1⟩ else s

/-- `Sentence.mark_safe` (lines 142-150): if the cell is in the sentence,
remove it and leave the count unchanged. -/
def mark_safe (s : Sentence) (cell : Cell) : Sentence :=
  if cell ∈ s.cells then ⟨s.cells.erase cell, s.count⟩ else s

end Sentence

/-- The state of `MinesweeperAI` (lines 153-172): board dimensions plus the
four owned collections. -/
structure MinesweeperAI where
  height : ℕ
  width : ℕ
  moves_made : Finset Cell
  mines : Finset Cell
  safes : Finset Cell
  knowledge : List Sentence
deriving DecidableEq

/-- `MinesweeperAI.__init__` (lines 158-172): empty collections. -/
def MinesweeperAI.init (height width : ℕ) : MinesweeperAI :=
  ⟨height, width, ∅, ∅, ∅, []⟩

namespace MinesweeperAI

/-- `MinesweeperAI.mark_mine` (lines 174-181): add the cell to `mines` and
mark it in every sentence. -/
def mark_mine (ai : MinesweeperAI) (cell : Cell) : MinesweeperAI :=
  { ai with
    mines := insert cell ai.mines
    knowledge := ai.knowledge.map (fun s => s.mark_mine cell) }

/-- `MinesweeperAI.mark_safe` (lines 183-190): add the cell to `safes` and
mark it in every sentence. -/
def mark_safe (ai : MinesweeperAI) (cell : Cell) : MinesweeperAI :=
  { ai with
    safes := insert cell ai.safes
    knowledge := ai.knowledge.map (fun s => s.mark_safe cell) }

/-- Body of the `for sentence in self.knowledge` loop of
`update_known_cells` (lines 196-200), at position `i` of the list: snapshot
the sentence's `known_mines`, mark each of those cells, then snapshot the
(possibly shrunk) sentence's `known_safes` and mark those.  (When `i` is out
of range both snapshots are empty and the state is unchanged; the source's
loop never reaches such an `i`.)  `mark_mines_step` is the `known_mines`
half of the body, `mark_safes_step` the `known_safes` half, and
`update_known_cells_body` their composition at the same position. -/
def mark_mines_step (ai : MinesweeperAI) (i : ℕ) : MinesweeperAI :=
  (cellList (ai.knowledge.getD i ⟨∅, 0⟩).known_mines).foldl
    MinesweeperAI.mark_mine ai

/-- The `known_safes` half of the loop body: snapshot the (possibly already
shrunk) sentence at position `i` and mark each of its known-safe cells. -/
def mark_safes_step (ai : MinesweeperAI) (i : ℕ) : MinesweeperAI :=
  (cellList (ai.knowledge.getD i ⟨∅, 0⟩).known_safes).foldl
    MinesweeperAI.mark_safe ai

def update_known_cells_body (ai : MinesweeperAI) (i : ℕ) : MinesweeperAI :=
  mark_safes_step (mark_mines_step ai i) i

/-- `MinesweeperAI.update_known_cells` (lines 192-200): one pass over the
sentences of the knowledge base, extracting and marking the known facts of
each in turn.  Marking never changes the list's length, so iterating over
the positions of the initial list matches the source's iteration. -/
def update_known_cells (ai : MinesweeperAI) : MinesweeperAI :=
  (List.range ai.knowledge.length).foldl update_known_cells_body ai

/-- `MinesweeperAI.create_simplest_cell_subset` (lines 214-223): keep only
the cells not already known to be mines or safe, and subtract from the count
the number of known-mine cells. -/
def create_simplest_cell_subset (ai : MinesweeperAI) (cells : Finset Cell)
    (count : ℤ) : Finset Cell × ℤ :=
  (cells.filter (fun n => ¬(n ∈ ai.mines ∨ n ∈ ai.safes)),
   count - ((cells.filter (fun n => n ∈ ai.mines)).card : ℤ))

/-- The sentence built from the two components returned by
`create_simplest_cell_subset` (the `Sentence(subset, count)` constructions
of lines 212 and 250). -/
def simplest_sentence (ai : MinesweeperAI) (cells : Finset Cell)
    (count : ℤ) : Sentence :=
  ⟨(ai.create_simplest_cell_subset cells count).1,
   (ai.create_simplest_cell_subset cells count).2⟩

/-- `MinesweeperAI.create_simplest_sentence` (lines 202-212): the subset
difference of the two sentences, normalized. -/
def create_simplest_sentence (ai : MinesweeperAI)
    (sentence other_sentence : Sentence) : Sentence :=
  ai.simplest_sentence (other_sentence.cells \ sentence.cells)
    (other_sentence.count - sentence.count)

/-- The eight king-move neighbour coordinates of a cell, in the order of the
list literal at lines 231-233. -/
def neighbour8 (cell : Cell) : List Cell :=
  [(cell.1 - 1, cell.2 - 1), (cell.1 - 1, cell.2), (cell.1 - 1, cell.2 + 1),
   (cell.1, cell.2 - 1), (cell.1, cell.2 + 1),
   (cell.1 + 1, cell.2 - 1), (cell.1 + 1, cell.2), (cell.1 + 1, cell.2 + 1)]

/-- The bounds check `0 <= n[0] < height and 0 <= n[1] < width`. -/
def inB (height width : ℕ) (c : Cell) : Prop :=
  0 ≤ c.1 ∧ c.1 < (height : ℤ) ∧ 0 ≤ c.2 ∧ c.2 < (width : ℤ)

instance (height width : ℕ) (c : Cell) : Decidable (inB height width c) :=
  inferInstanceAs
    (Decidable (0 ≤ c.1 ∧ c.1 < (height : ℤ) ∧ 0 ≤ c.2 ∧ c.2 < (width : ℤ)))

/-- `MinesweeperAI.get_neighbour_cells` (lines 225-237): the eight
neighbours restricted to the board. -/
def get_neighbour_cells (ai : MinesweeperAI) (cell : Cell) : List Cell :=
  (neighbour8 cell).filter (fun n => decide (inB ai.height ai.width n))

/-- Steps 1-4 of `add_knowledge` (lines 245-251): record the move, mark the
probed cell safe, and append the normalized neighbour sentence.  The
neighbour list holds pairwise distinct cells, so converting it to a
`Finset` before normalizing preserves the source's count arithmetic. -/
def append_new_sentence (ai : MinesweeperAI) (cell : Cell)
    (count : ℤ) : MinesweeperAI :=
  { ai with
    knowledge := ai.knowledge ++
      [ai.simplest_sentence (ai.get_neighbour_cells cell).toFinset count] }

def record_new_sentence (ai : MinesweeperAI) (cell : Cell)
    (count : ℤ) : MinesweeperAI :=
  append_new_sentence
    (MinesweeperAI.mark_safe { ai with moves_made := insert cell ai.moves_made }
      cell)
    cell count

/-- Body of the doubly nested subset-inference loop of `add_knowledge`
(lines 257-264): when the first sentence is structurally distinct from and
a cell-subset of the second, derive the simplified difference sentence and
append it unless a structurally equal sentence is already present. -/
def subset_step (ai : MinesweeperAI)
    (sentence other_sentence : Sentence) : MinesweeperAI :=
  if sentence ≠ other_sentence ∧ sentence.cells ⊆ other_sentence.cells then
    if ai.create_simplest_sentence sentence other_sentence ∈ ai.knowledge then ai
    else
      { ai with
        knowledge :=
          ai.knowledge ++ [ai.create_simplest_sentence sentence other_sentence] }
  else ai

/-- The subset-inference pass of `add_knowledge` (lines 256-264): iterate
`subset_step` over every ordered pair drawn from the snapshot
`pre_existing_knowledge` of the current knowledge list. -/
def subset_inference (ai : MinesweeperAI) : MinesweeperAI :=
  let pre := ai.knowledge
  pre.foldl
    (fun acc sentence =>
      pre.foldl
        (fun acc2 other_sentence => subset_step acc2 sentence other_sentence)
        acc)
    ai

/-- `MinesweeperAI.add_knowledge` (lines 239-265), the engine's
`record_clue`: record the new sentence, extract known facts once, run one
subset-inference pass, and extract known facts once more. -/
def add_knowledge (ai : MinesweeperAI) (cell : Cell)
    (count : ℤ) : MinesweeperAI :=
  update_known_cells
    (subset_inference (update_known_cells (record_new_sentence ai cell count)))

/-- The board cells in row-major order: the iteration sequence of the
nested `for i in range(height): for j in range(width)` loops. -/
def allCellsList (height width : ℕ) : List Cell :=
  (List.range height).flatMap
    (fun (i : ℕ) => (List.range width).map (fun (j : ℕ) => ((i : ℤ), (j : ℤ))))

/-- `MinesweeperAI.make_safe_move` (lines 267-282): the first cell in
row-major order that is known safe and not yet played.  The embedding is
pure, so the engine state is unchanged by construction. -/
def make_safe_move (ai : MinesweeperAI) : Option Cell :=
  (allCellsList ai.height ai.width).find?
    (fun c => decide (c ∈ ai.safes ∧ c ∉ ai.moves_made))

/-- The `possible_cells` list of `make_random_move` (lines 291-295): board
cells that are neither known mines nor already-played moves. -/
def possible_cells (ai : MinesweeperAI) : List Cell :=
  (allCellsList ai.height ai.width).filter
    (fun c => decide (c ∉ ai.mines ∧ c ∉ ai.moves_made))

/-- `MinesweeperAI.make_random_move` (lines 284-298): none when no cell is
eligible, otherwise an eligible cell.  The random draw of
`random.choice` is modelled by an injectable index `pick`; reducing it
modulo the list length makes every eligible cell a possible outcome. -/
def make_random_move (ai : MinesweeperAI) (pick : ℕ) : Option Cell :=
  let l := possible_cells ai
  if l.isEmpty then none else some (l.getD (pick % l.length) (0, 0))

end MinesweeperAI

/-- `Minesweeper.nearby_mines` (lines 55-78) for a board with mine set `M`:
the number of in-bounds neighbours of `cell` that carry mines.  The source's
3-by-3 double loop skipping the cell itself enumerates exactly the eight
`neighbour8` coordinates, in the same order. -/
def nearby_mines (height width : ℕ) (M : Finset Cell) (cell : Cell) : ℤ :=
  (((MinesweeperAI.neighbour8 cell).filter
    (fun n => decide (MinesweeperAI.inB height width n ∧ n ∈ M))).length : ℤ)

/-- The engine states reachable through the driver protocol on one fixed
board of dimensions `height` by `width` with mine set `M`: starting from a
fresh engine, the driver repeatedly probes an in-bounds, not-yet-probed,
non-mine cell and reports the true neighbouring-mine count (spec section 6
contract for `record_clue`). -/
inductive Reachable (height width : ℕ) (M : Finset Cell) :
    MinesweeperAI → Prop where
  | init : Reachable height width M (MinesweeperAI.init height width)
  | step (ai : MinesweeperAI) (cell : Cell) :
      Reachable height width M ai →
      MinesweeperAI.inB height width cell →
      cell ∉ M →
      cell ∉ ai.moves_made →
      Reachable height width M
        (ai.add_knowledge cell (nearby_mines height width M cell))

/-! ## Basic lemmas -/

theorem mem_allCellsList (H W : ℕ) (c : Cell) :
    c ∈ MinesweeperAI.allCellsList H W ↔ MinesweeperAI.inB H W c := by
  unfold MinesweeperAI.allCellsList MinesweeperAI.inB
  rw [List.mem_flatMap]
  constructor
  · rintro ⟨i, hi, hc⟩
    rw [List.mem_map] at hc
    obtain ⟨j, hj, rfl⟩ := hc
    rw [List.mem_range] at hi hj
    exact ⟨Int.natCast_nonneg i, by simp; exact_mod_cast hi,
      Int.natCast_nonneg j, by simp; exact_mod_cast hj⟩
  · rintro ⟨h1, h2, h3, h4⟩
    refine ⟨c.1.toNat, by rw [List.mem_range]; omega, ?_⟩
    rw [List.mem_map]
    refine ⟨c.2.toNat, by rw [List.mem_range]; omega, ?_⟩
    apply Prod.ext <;> simp <;> omega

theorem mem_possible_cells (ai : MinesweeperAI) (c : Cell) :
    c ∈ ai.possible_cells ↔
      MinesweeperAI.inB ai.height ai.width c ∧ c ∉ ai.mines ∧ c ∉ ai.moves_made := by
  simp [MinesweeperAI.possible_cells, List.mem_filter, mem_allCellsList]

/-! ## Claim C3: normalization of new sentences -/

/-- C3: the normalization used for every newly built sentence (both the
step-4 neighbour sentence and every subset-derived sentence, which are both
built through `create_simplest_cell_subset`) keeps exactly the cells not
already in `mines` or `safes`, and decreases the count by exactly the
number of cells of the input set that are known mines — so removing
known-safe cells never changes the count, and the subset-derived sentence
has exactly the claimed shape. -/
theorem C3_normalization (ai : MinesweeperAI) (cells : Finset Cell)
    (count : ℤ) :
    (ai.create_simplest_cell_subset cells count).1 =
        cells \ (ai.mines ∪ ai.safes) ∧
      (ai.create_simplest_cell_subset cells count).2 =
        count - (((cells \ (cells \ (ai.mines ∪ ai.safes))) ∩ ai.mines).card : ℤ) ∧
      ∀ sentence other_sentence : Sentence,
        ai.create_simplest_sentence sentence other_sentence =
          ⟨(other_sentence.cells \ sentence.cells) \ (ai.mines ∪ ai.safes),
           other_sentence.count - sentence.count -
             (((other_sentence.cells \ sentence.cells) ∩ ai.mines).card : ℤ)⟩ := by
  have hcells : ∀ X : Finset Cell,
      X.filter (fun n => ¬(n ∈ ai.mines ∨ n ∈ ai.safes)) =
        X \ (ai.mines ∪ ai.safes) := by
    intro X
    ext c
    simp [Finset.mem_filter, Finset.mem_sdiff, Finset.mem_union, not_or]
  have hremoved : ∀ X : Finset Cell,
      (X \ (X \ (ai.mines ∪ ai.safes))) ∩ ai.mines = X ∩ ai.mines := by
    intro X
    ext c
    simp [Finset.mem_sdiff, Finset.mem_inter, Finset.mem_union]
  have hcount : ∀ X : Finset Cell,
      X.filter (fun n => n ∈ ai.mines) = X ∩ ai.mines := by
    intro X
    ext c
    simp [Finset.mem_filter, Finset.mem_inter]
  refine ⟨hcells cells, ?_, ?_⟩
  · show count - _ = _
    rw [hremoved, hcount]
  · intro sentence other_sentence
    unfold MinesweeperAI.create_simplest_sentence MinesweeperAI.simplest_sentence
      MinesweeperAI.create_simplest_cell_subset
    refine congrArg₂ Sentence.mk (hcells _) ?_
    rw [hcount]

/-! ## Claim C8: idempotence of the marking operations -/

/-- C8: marking the same cell as a mine (or as safe) twice in a row on a
`Sentence` or on the whole engine yields exactly the state obtained by
marking it once. -/
theorem C8_mark_idempotent :
    (∀ (s : Sentence) (c : Cell), (s.mark_mine c).mark_mine c = s.mark_mine c)
    ∧ (∀ (s : Sentence) (c : Cell), (s.mark_safe c).mark_safe c = s.mark_safe c)
    ∧ (∀ (ai : MinesweeperAI) (c : Cell),
        (ai.mark_mine c).mark_mine c = ai.mark_mine c)
    ∧ (∀ (ai : MinesweeperAI) (c : Cell),
        (ai.mark_safe c).mark_safe c = ai.mark_safe c) := by
  have hm : ∀ (s : Sentence) (c : Cell),
      (s.mark_mine c).mark_mine c = s.mark_mine c := by
    intro s c
    unfold Sentence.mark_mine
    by_cases h : c ∈ s.cells <;> simp [h, Finset.not_mem_erase]
  have hs : ∀ (s : Sentence) (c : Cell),
      (s.mark_safe c).mark_safe c = s.mark_safe c := by
    intro s c
    unfold Sentence.mark_safe
    by_cases h : c ∈ s.cells <;> simp [h, Finset.not_mem_erase]
  refine ⟨hm, hs, ?_, ?_⟩
  · intro ai c
    unfold MinesweeperAI.mark_mine
    simp only [List.map_map, Finset.insert_idem]
    congr 1
    apply List.map_congr_left
    intro s _
    exact hm s c
  · intro ai c
    unfold MinesweeperAI.mark_safe
    simp only [List.map_map, Finset.insert_idem]
    congr 1
    apply List.map_congr_left
    intro s _
    exact hs s c

/-! ## Claim C10: make_random_move -/

/-- C10: `make_random_move` returns none exactly when every board cell is a
known mine or an already-made move; otherwise it returns a board cell that
is in neither set, and every such cell (in particular any cell of unknown
status, with no filtering by `safes`) is a possible outcome of the random
draw. -/
theorem C10_make_random_move (ai : MinesweeperAI) (pick : ℕ) :
    (ai.make_random_move pick = none ↔
      ∀ c : Cell, MinesweeperAI.inB ai.height ai.width c →
        c ∈ ai.mines ∨ c ∈ ai.moves_made)
    ∧ (∀ c : Cell, ai.make_random_move pick = some c →
        MinesweeperAI.inB ai.height ai.width c ∧
          c ∉ ai.mines ∧ c ∉ ai.moves_made)
    ∧ (∀ c : Cell, MinesweeperAI.inB ai.height ai.width c →
        c ∉ ai.mines → c ∉ ai.moves_made →
        ∃ p : ℕ, ai.make_random_move p = some c) := by
  refine ⟨⟨?_, ?_⟩, ?_, ?_⟩
  · intro hnone c hcin
    by_contra hcon
    push_neg at hcon
    have hc : c ∈ ai.possible_cells :=
      (mem_possible_cells ai c).mpr ⟨hcin, hcon.1, hcon.2⟩
    unfold MinesweeperAI.make_random_move at hnone
    have hne : ¬ (ai.possible_cells).isEmpty := by
      rw [List.isEmpty_iff]
      intro hnil
      rw [hnil] at hc
      simp at hc
    rw [if_neg hne] at hnone
    cases hnone
  · intro hall
    unfold MinesweeperAI.make_random_move
    have hemp : (ai.possible_cells).isEmpty := by
      rw [List.isEmpty_iff, List.eq_nil_iff_forall_not_mem]
      intro c hc
      rw [mem_possible_cells] at hc
      rcases hall c hc.1 with hb | hb
      exacts [hc.2.1 hb, hc.2.2 hb]
    rw [if_pos hemp]
  · intro c hc
    unfold MinesweeperAI.make_random_move at hc
    by_cases h : (ai.possible_cells).isEmpty
    · rw [if_pos h] at hc
      cases hc
    · rw [if_neg h] at hc
      injection hc with hc
      have hlen : 0 < (ai.possible_cells).length := by
        apply List.length_pos.mpr
        intro hnil
        exact h (by rw [List.isEmpty_iff]; exact hnil)
      have hmem : (ai.possible_cells).getD
          (pick % (ai.possible_cells).length) (0, 0) ∈ ai.possible_cells := by
        rw [List.getD_eq_getElem _ _ (Nat.mod_lt _ hlen)]
        exact List.getElem_mem _
      rw [hc] at hmem
      rw [mem_possible_cells] at hmem
      exact hmem
  · intro c hc hm hmm
    have hmem : c ∈ ai.possible_cells := by
      rw [mem_possible_cells]
      exact ⟨hc, hm, hmm⟩
    rw [List.mem_iff_getElem] at hmem
    obtain ⟨n, hn, hcn⟩ := hmem
    refine ⟨n, ?_⟩
    unfold MinesweeperAI.make_random_move
    have h : ¬ (ai.possible_cells).isEmpty := by
      rw [List.isEmpty_iff]
      intro hnil
      rw [hnil] at hn
      simp at hn
    rw [if_neg h, Nat.mod_eq_of_lt hn, List.getD_eq_getElem _ _ hn, hcn]

/-! ## Generic fold-invariant helper -/

theorem foldl_preserves {α β : Type} (P : β → Prop) (f : β → α → β) :
    ∀ (l : List α) (b : β), (∀ (b' : β) (x : α), x ∈ l → P b' → P (f b' x)) →
      P b → P (l.foldl f b)
  | [], _, _, hb => hb
  | x :: xs, b, h, hb =>
      foldl_preserves P f xs (f b x)
        (fun b' y hy => h b' y (List.mem_cons_of_mem _ hy))
        (h b x (List.mem_cons_self _ _) hb)

/-! ## Claims C1 and C2: the shape of the inference round -/

theorem subset_step_nodup (ai : MinesweeperAI) (a b : Sentence)
    (h : ai.knowledge.Nodup) : (ai.subset_step a b).knowledge.Nodup := by
  unfold MinesweeperAI.subset_step
  split_ifs with h1 h2
  · exact h
  · show (ai.knowledge ++ [ai.create_simplest_sentence a b]).Nodup
    rw [List.nodup_append]
    refine ⟨h, List.nodup_singleton _, ?_⟩
    intro x hx hx'
    rw [List.mem_singleton] at hx'
    subst hx'
    exact h2 hx
  · exact h

/-- The board for the non-closure counterexample: a 2-by-4 board with mines
at `(1,0)` and `(1,2)`. -/
def cexC1_board : Finset Cell := {(1, 0), (1, 2)}

/-- The engine after the driver probes `(0,0)`, `(0,3)` and `(0,1)` (with
true clue counts 1, 1 and 2) on the `cexC1_board` board. -/
def cexC1_state : MinesweeperAI :=
  (((MinesweeperAI.init 2 4).add_knowledge (0, 0)
        (nearby_mines 2 4 cexC1_board (0, 0))).add_knowledge (0, 3)
      (nearby_mines 2 4 cexC1_board (0, 3))).add_knowledge (0, 1)
    (nearby_mines 2 4 cexC1_board (0, 1))

/-- C1 (counterexample): the state returned by the third contract-respecting
`record_clue` call of the `cexC1_board` scenario is not closed under the two
inference passes — one further subset-inference pass still changes the
knowledge base (it would add the sentence `{(1,3)} = 0`), so `add_knowledge`
does not repeat the passes until no pass produces a change. -/
theorem C1_counterexample :
    Reachable 2 4 cexC1_board cexC1_state ∧
      ¬ (MinesweeperAI.update_known_cells cexC1_state = cexC1_state ∧
         MinesweeperAI.subset_inference cexC1_state = cexC1_state) := by
  constructor
  · exact Reachable.step _ _ (Reachable.step _ _ (Reachable.step _ _ Reachable.init
      (by decide) (by decide) (by decide)) (by decide) (by decide) (by decide))
      (by decide) (by decide) (by decide)
  · intro hcon
    exact absurd hcon.2 (by decide)

/-- C1 (amended): each `record_clue` call runs the passes a fixed number of
times — one fact-extraction pass, one subset-inference pass over the
sentences then present, and one final fact-extraction pass — rather than
repeating them until no pass produces a change, and the post-state need not
be closed: some reachable post-call state is changed by one further
subset-inference pass. -/
theorem C1_single_round :
    (∀ (ai : MinesweeperAI) (cell : Cell) (count : ℤ),
      ai.add_knowledge cell count =
        MinesweeperAI.update_known_cells
          (MinesweeperAI.subset_inference
            (MinesweeperAI.update_known_cells
              (ai.record_new_sentence cell count))))
    ∧ ∃ (H W : ℕ) (M : Finset Cell) (ai : MinesweeperAI),
        Reachable H W M ai ∧ MinesweeperAI.subset_inference ai ≠ ai := by
  refine ⟨fun _ _ _ => rfl, 2, 4, cexC1_board, cexC1_state, ?_, by decide⟩
  exact Reachable.step _ _ (Reachable.step _ _ (Reachable.step _ _ Reachable.init
    (by decide) (by decide) (by decide)) (by decide) (by decide) (by decide))
    (by decide) (by decide) (by decide)

/-- The engine after the driver probes `(0,0)` and `(0,1)` (both with true
clue count 0) on a mine-free 2-by-2 board. -/
def cexC2_state : MinesweeperAI :=
  ((MinesweeperAI.init 2 2).add_knowledge (0, 0)
      (nearby_mines 2 2 ∅ (0, 0))).add_knowledge
    (0, 1) (nearby_mines 2 2 ∅ (0, 1))

/-- C2 (counterexample): a reachable engine state whose knowledge list holds
two structurally-equal sentences (twice the sentence `∅ = 0`): the step-4
neighbour sentence is appended without any duplicate check. -/
theorem C2_counterexample :
    Reachable 2 2 ∅ cexC2_state ∧ ¬ cexC2_state.knowledge.Nodup := by
  constructor
  · exact Reachable.step _ _ (Reachable.step _ _ Reachable.init
      (by decide) (by decide) (by decide)) (by decide) (by decide) (by decide)
  · decide

/-- C2 (amended): the subset-inference pass of `record_clue` inserts a
derived sentence only if no structurally-equal sentence is already present,
so it preserves duplicate-freeness of the knowledge list; the step-4
neighbour sentence, however, is appended unconditionally, so a reachable
knowledge list can contain structurally-equal duplicates
(see the C2 counterexample). -/
theorem C2_subset_dedup (ai : MinesweeperAI) (h : ai.knowledge.Nodup) :
    (MinesweeperAI.subset_inference ai).knowledge.Nodup := by
  unfold MinesweeperAI.subset_inference
  refine foldl_preserves (fun st : MinesweeperAI => st.knowledge.Nodup) _ _ _ ?_ h
  intro b' x _ hb'
  refine foldl_preserves (fun st : MinesweeperAI => st.knowledge.Nodup) _ _ _ ?_ hb'
  intro b'' y _ hb''
  exact subset_step_nodup _ _ _ hb''

/-- A small concrete state with a duplicate-free knowledge list, used to
instantiate `C2_subset_dedup`. -/
def c2wit_state : MinesweeperAI :=
  (MinesweeperAI.init 2 2).add_knowledge (0, 0) 1

/-- Witness for `C2_subset_dedup` at a concrete engine state. -/
theorem C2_subset_dedup_witness :
    (MinesweeperAI.subset_inference c2wit_state).knowledge.Nodup :=
  C2_subset_dedup c2wit_state (by decide)

/-! ## Claim C9: make_safe_move -/

/-- Strict row-major precedence between cells. -/
def cellLt (c c' : Cell) : Prop :=
  c.1 < c'.1 ∨ (c.1 = c'.1 ∧ c.2 < c'.2)

theorem allCellsList_pairwise (H W : ℕ) :
    (MinesweeperAI.allCellsList H W).Pairwise cellLt := by
  unfold MinesweeperAI.allCellsList
  rw [List.pairwise_flatMap]
  constructor
  · intro i _
    rw [List.pairwise_map]
    refine (List.pairwise_lt_range W).imp ?_
    intro a b hab
    right
    exact ⟨rfl, by simp only []; exact_mod_cast hab⟩
  · refine (List.pairwise_lt_range H).imp ?_
    intro a b hab x hx y hy
    rw [List.mem_map] at hx hy
    obtain ⟨j, _, rfl⟩ := hx
    obtain ⟨j', _, rfl⟩ := hy
    left
    simp only []
    exact_mod_cast hab

theorem find?_first {α : Type} (R : α → α → Prop) (p : α → Bool) :
    ∀ l : List α, l.Pairwise R → ∀ a : α, l.find? p = some a →
      ∀ b ∈ l, p b = true → a = b ∨ R a b := by
  intro l
  induction l with
  | nil => intro _ a ha; cases ha
  | cons x xs ih =>
      intro hpw a ha b hb hpb
      rw [List.pairwise_cons] at hpw
      by_cases hpx : p x = true
      · rw [List.find?_cons_of_pos _ hpx] at ha
        injection ha with ha
        subst ha
        rcases hb with _ | hb
        · exact Or.inl rfl
        · exact Or.inr (hpw.1 b (by assumption))
      · rw [List.find?_cons_of_neg _ hpx] at ha
        rcases hb with _ | hb
        · exact absurd hpb hpx
        · exact ih hpw.2 a ha b (by assumption) hpb

/-- C9: if every known-safe cell is on the board (true in every reachable
state), `make_safe_move` returns none exactly when every safe cell has
already been played, and otherwise returns a member of
`safes − moves_made` that precedes every other member in row-major order
(row ascending, then column ascending) — that is, the first such cell.  The
embedding of `make_safe_move` is a pure function of the engine state, so it
leaves `mines`, `safes` and `moves_made` unchanged by construction. -/
theorem C9_make_safe_move (ai : MinesweeperAI)
    (hs : ∀ c ∈ ai.safes, MinesweeperAI.inB ai.height ai.width c) :
    (ai.make_safe_move = none ↔ ∀ c ∈ ai.safes, c ∈ ai.moves_made)
    ∧ ∀ c : Cell, ai.make_safe_move = some c →
        c ∈ ai.safes ∧ c ∉ ai.moves_made ∧
          ∀ c' ∈ ai.safes, c' ∉ ai.moves_made → cellLe c c' := by
  constructor
  · unfold MinesweeperAI.make_safe_move
    rw [List.find?_eq_none]
    constructor
    · intro h c hc
      by_contra hcm
      have hmem : c ∈ MinesweeperAI.allCellsList ai.height ai.width :=
        (mem_allCellsList _ _ _).mpr (hs c hc)
      have hx := h c hmem
      rw [decide_eq_true_iff] at hx
      exact hx ⟨hc, hcm⟩
    · intro hall x _ hx
      rw [decide_eq_true_iff] at hx
      exact hx.2 (hall x hx.1)
  · intro c hc
    have hp := List.find?_some hc
    rw [decide_eq_true_iff] at hp
    refine ⟨hp.1, hp.2, ?_⟩
    intro c' hc' hcm'
    have hmem' : c' ∈ MinesweeperAI.allCellsList ai.height ai.width :=
      (mem_allCellsList _ _ _).mpr (hs c' hc')
    have hfirst := find?_first cellLt _ _
      (allCellsList_pairwise ai.height ai.width) c hc c' hmem'
      (by rw [decide_eq_true_iff]; exact ⟨hc', hcm'⟩)
    rcases hfirst with rfl | hlt
    · exact Or.inr ⟨rfl, le_refl _⟩
    · rcases hlt with h1 | ⟨h1, h2⟩
      · exact Or.inl h1
      · exact Or.inr ⟨h1, le_of_lt h2⟩

/-- A concrete state for instantiating `C9_make_safe_move`: after a
zero-count clue at `(0,0)` on a 2-by-2 board, all four cells are safe and
only `(0,0)` has been played. -/
def c9wit_state : MinesweeperAI :=
  (MinesweeperAI.init 2 2).add_knowledge (0, 0) 0

/-- Witness for `C9_make_safe_move`: on the concrete state, the returned
cell `(0,1)` is safe, unplayed, and row-major-first among such cells. -/
theorem C9_make_safe_move_witness :
    (0, 1) ∈ c9wit_state.safes ∧ ((0, 1) : Cell) ∉ c9wit_state.moves_made ∧
      ∀ c' ∈ c9wit_state.safes, c' ∉ c9wit_state.moves_made →
        cellLe (0, 1) c' :=
  (C9_make_safe_move c9wit_state (by decide)).2 (0, 1) (by decide)

/-! ## Invariants of reachable states

`exactS M s` says a sentence's count is exactly the number of its cells
that are mines on the real board `M`; `Inv M ai` bundles the invariants the
driver protocol maintains; `Evolves ai ai'` records how one engine state
develops into another inside a call: the known sets only grow, and every
sentence of normalized form survives as the same form re-normalized against
the grown sets. -/

def exactS (M : Finset Cell) (s : Sentence) : Prop :=
  s.count = ((s.cells ∩ M).card : ℤ)

structure EngineInv (M : Finset Cell) (ai : MinesweeperAI) : Prop where
  mines_sub : ai.mines ⊆ M
  safes_no : ∀ c ∈ ai.safes, c ∉ M
  exact_all : ∀ s ∈ ai.knowledge, exactS M s
  nf : ∀ s ∈ ai.knowledge, ∀ c ∈ s.cells, c ∉ ai.mines ∧ c ∉ ai.safes

structure Evolves (ai ai' : MinesweeperAI) : Prop where
  height_eq : ai'.height = ai.height
  width_eq : ai'.width = ai.width
  mines_mono : ai.mines ⊆ ai'.mines
  safes_mono : ai.safes ⊆ ai'.safes
  form : ∀ (X : Finset Cell) (k : ℤ),
    ai.simplest_sentence X k ∈ ai.knowledge →
      ai'.simplest_sentence X k ∈ ai'.knowledge

theorem evolves_self (ai : MinesweeperAI) : Evolves ai ai :=
  ⟨rfl, rfl, Finset.Subset.refl _, Finset.Subset.refl _, fun _ _ h => h⟩

theorem Evolves.trans {a b c : MinesweeperAI}
    (h1 : Evolves a b) (h2 : Evolves b c) : Evolves a c :=
  ⟨h2.height_eq.trans h1.height_eq, h2.width_eq.trans h1.width_eq,
   h1.mines_mono.trans h2.mines_mono, h1.safes_mono.trans h2.safes_mono,
   fun X k h => h2.form X k (h1.form X k h)⟩

theorem simplest_congr (ai ai' : MinesweeperAI) (hm : ai.mines = ai'.mines)
    (hs : ai.safes = ai'.safes) (X : Finset Cell) (k : ℤ) :
    ai.simplest_sentence X k = ai'.simplest_sentence X k := by
  unfold MinesweeperAI.simplest_sentence MinesweeperAI.create_simplest_cell_subset
  rw [hm, hs]

theorem filter_und_safe (m s X : Finset Cell) (c : Cell) :
    X.filter (fun n => ¬(n ∈ m ∨ n ∈ insert c s)) =
      (X.filter (fun n => ¬(n ∈ m ∨ n ∈ s))).erase c := by
  ext n
  simp only [Finset.mem_erase, Finset.mem_filter, Finset.mem_insert, not_or]
  tauto

theorem filter_und_mine (m s X : Finset Cell) (c : Cell) :
    X.filter (fun n => ¬(n ∈ insert c m ∨ n ∈ s)) =
      (X.filter (fun n => ¬(n ∈ m ∨ n ∈ s))).erase c := by
  ext n
  simp only [Finset.mem_erase, Finset.mem_filter, Finset.mem_insert, not_or]
  tauto

theorem card_filter_mine_insert (m X : Finset Cell) (c : Cell)
    (hcX : c ∈ X) (hcm : c ∉ m) :
    (X.filter (fun n => n ∈ insert c m)).card =
      (X.filter (fun n => n ∈ m)).card + 1 := by
  have heq : X.filter (fun n => n ∈ insert c m) =
      insert c (X.filter (fun n => n ∈ m)) := by
    ext n
    simp only [Finset.mem_insert, Finset.mem_filter]
    constructor
    · rintro ⟨hX, rfl | hm⟩
      · exact Or.inl rfl
      · exact Or.inr ⟨hX, hm⟩
    · rintro (rfl | ⟨hX, hm⟩)
      · exact ⟨hcX, Or.inl rfl⟩
      · exact ⟨hX, Or.inr hm⟩
  rw [heq, Finset.card_insert_of_not_mem (by simp [Finset.mem_filter, hcm])]

theorem filter_mine_insert_of_not (m X : Finset Cell) (c : Cell)
    (h : c ∉ X ∨ c ∈ m) :
    X.filter (fun n => n ∈ insert c m) = X.filter (fun n => n ∈ m) := by
  ext n
  simp only [Finset.mem_insert, Finset.mem_filter]
  constructor
  · rintro ⟨hX, rfl | hm⟩
    · rcases h with h | h
      · exact absurd hX h
      · exact ⟨hX, h⟩
    · exact ⟨hX, hm⟩
  · rintro ⟨hX, hm⟩
    exact ⟨hX, Or.inr hm⟩

theorem simplest_mark_safe (ai : MinesweeperAI) (c : Cell)
    (X : Finset Cell) (k : ℤ) :
    (ai.simplest_sentence X k).mark_safe c =
      (ai.mark_safe c).simplest_sentence X k := by
  unfold Sentence.mark_safe
  by_cases hcf : c ∈ (ai.simplest_sentence X k).cells
  · rw [if_pos hcf]
    exact congrArg₂ Sentence.mk (filter_und_safe ai.mines ai.safes X c).symm rfl
  · rw [if_neg hcf]
    refine congrArg₂ Sentence.mk ?_ rfl
    show X.filter (fun n => ¬(n ∈ ai.mines ∨ n ∈ ai.safes)) =
      X.filter (fun n => ¬(n ∈ ai.mines ∨ n ∈ insert c ai.safes))
    rw [filter_und_safe]
    exact (Finset.erase_eq_of_not_mem hcf).symm

theorem simplest_mark_mine (ai : MinesweeperAI) (c : Cell)
    (hc : c ∉ ai.safes) (X : Finset Cell) (k : ℤ) :
    (ai.simplest_sentence X k).mark_mine c =
      (ai.mark_mine c).simplest_sentence X k := by
  unfold Sentence.mark_mine
  by_cases hcf : c ∈ (ai.simplest_sentence X k).cells
  · have hprops : c ∈ X ∧ c ∉ ai.mines ∧ c ∉ ai.safes := by
      have := hcf
      rw [show (ai.simplest_sentence X k).cells =
          X.filter (fun n => ¬(n ∈ ai.mines ∨ n ∈ ai.safes)) from rfl,
        Finset.mem_filter] at this
      exact ⟨this.1, fun h => this.2 (Or.inl h), fun h => this.2 (Or.inr h)⟩
    rw [if_pos hcf]
    refine congrArg₂ Sentence.mk
      (filter_und_mine ai.mines ai.safes X c).symm ?_
    show (ai.simplest_sentence X k).count - 1 = _
    show k - ((X.filter (fun n => n ∈ ai.mines)).card : ℤ) - 1 =
      k - ((X.filter (fun n => n ∈ insert c ai.mines)).card : ℤ)
    rw [card_filter_mine_insert ai.mines X c hprops.1 hprops.2.1]
    push_cast
    ring
  · rw [if_neg hcf]
    have h' : c ∉ X ∨ c ∈ ai.mines := by
      by_contra hcon
      push_neg at hcon
      apply hcf
      rw [show (ai.simplest_sentence X k).cells =
          X.filter (fun n => ¬(n ∈ ai.mines ∨ n ∈ ai.safes)) from rfl,
        Finset.mem_filter]
      exact ⟨hcon.1, fun h => h.elim hcon.2 hc⟩
    refine congrArg₂ Sentence.mk ?_ ?_
    · show X.filter (fun n => ¬(n ∈ ai.mines ∨ n ∈ ai.safes)) =
        X.filter (fun n => ¬(n ∈ insert c ai.mines ∨ n ∈ ai.safes))
      rw [filter_und_mine]
      exact (Finset.erase_eq_of_not_mem hcf).symm
    · show (ai.simplest_sentence X k).count = _
      show k - ((X.filter (fun n => n ∈ ai.mines)).card : ℤ) =
        k - ((X.filter (fun n => n ∈ insert c ai.mines)).card : ℤ)
      rw [filter_mine_insert_of_not ai.mines X c h']

theorem exactS_mark_mine (M : Finset Cell) (s : Sentence) (c : Cell)
    (hcM : c ∈ M) (h : exactS M s) : exactS M (s.mark_mine c) := by
  unfold Sentence.mark_mine
  by_cases hcs : c ∈ s.cells
  · rw [if_pos hcs]
    show s.count - 1 = (((s.cells.erase c) ∩ M).card : ℤ)
    have heq : (s.cells.erase c) ∩ M = (s.cells ∩ M).erase c := by
      ext n
      simp only [Finset.mem_erase, Finset.mem_inter]
      tauto
    rw [heq, Finset.card_erase_of_mem (Finset.mem_inter.mpr ⟨hcs, hcM⟩)]
    have hpos : 0 < (s.cells ∩ M).card :=
      Finset.card_pos.mpr ⟨c, Finset.mem_inter.mpr ⟨hcs, hcM⟩⟩
    unfold exactS at h
    omega
  · rw [if_neg hcs]
    exact h

theorem exactS_mark_safe (M : Finset Cell) (s : Sentence) (c : Cell)
    (hcM : c ∉ M) (h : exactS M s) : exactS M (s.mark_safe c) := by
  unfold Sentence.mark_safe
  by_cases hcs : c ∈ s.cells
  · rw [if_pos hcs]
    show s.count = (((s.cells.erase c) ∩ M).card : ℤ)
    have heq : (s.cells.erase c) ∩ M = s.cells ∩ M := by
      ext n
      simp only [Finset.mem_erase, Finset.mem_inter]
      constructor
      · rintro ⟨⟨-, h1⟩, h2⟩
        exact ⟨h1, h2⟩
      · rintro ⟨h1, h2⟩
        refine ⟨⟨?_, h1⟩, h2⟩
        rintro rfl
        exact hcM h2
    rw [heq]
    exact h
  · rw [if_neg hcs]
    exact h

theorem known_mines_subset_cells (s : Sentence) : s.known_mines ⊆ s.cells := by
  unfold Sentence.known_mines
  split
  · exact Finset.Subset.refl _
  · exact Finset.empty_subset _

theorem known_safes_subset_cells (s : Sentence) : s.known_safes ⊆ s.cells := by
  unfold Sentence.known_safes
  split
  · exact Finset.Subset.refl _
  · exact Finset.empty_subset _

theorem known_mines_in_M (M : Finset Cell) (s : Sentence) (h : exactS M s) :
    ∀ c ∈ s.known_mines, c ∈ M := by
  unfold Sentence.known_mines
  split
  case isTrue hif =>
    intro c hc
    have hcard : s.cells.card ≤ (s.cells ∩ M).card := by
      have h1 := hif.1
      unfold exactS at h
      omega
    have heq : s.cells ∩ M = s.cells :=
      Finset.eq_of_subset_of_card_le Finset.inter_subset_left hcard
    have hmem : c ∈ s.cells ∩ M := heq.symm ▸ hc
    exact (Finset.mem_inter.mp hmem).2
  case isFalse =>
    intro c hc
    exact absurd hc (Finset.not_mem_empty c)

theorem known_safes_not_in_M (M : Finset Cell) (s : Sentence) (h : exactS M s) :
    ∀ c ∈ s.known_safes, c ∉ M := by
  unfold Sentence.known_safes
  split
  case isTrue hif =>
    intro c hc hcM
    have : (s.cells ∩ M).card = 0 := by
      unfold exactS at h
      omega
    have hempty : s.cells ∩ M = ∅ := Finset.card_eq_zero.mp this
    have : c ∈ s.cells ∩ M := Finset.mem_inter.mpr ⟨hc, hcM⟩
    rw [hempty] at this
    exact Finset.not_mem_empty c this
  case isFalse =>
    intro c hc
    exact absurd hc (Finset.not_mem_empty c)

theorem mark_mine_cells (s : Sentence) (c : Cell) :
    (s.mark_mine c).cells ⊆ s.cells.erase c := by
  unfold Sentence.mark_mine
  split
  case isTrue => exact Finset.Subset.refl _
  case isFalse hns => rw [Finset.erase_eq_of_not_mem hns]

theorem mark_safe_cells (s : Sentence) (c : Cell) :
    (s.mark_safe c).cells ⊆ s.cells.erase c := by
  unfold Sentence.mark_safe
  split
  case isTrue => exact Finset.Subset.refl _
  case isFalse hns => rw [Finset.erase_eq_of_not_mem hns]

theorem mark_mine_inv (M : Finset Cell) (ai : MinesweeperAI) (c : Cell)
    (hcM : c ∈ M) (h : EngineInv M ai) : EngineInv M (ai.mark_mine c) := by
  constructor
  · exact Finset.insert_subset_iff.mpr ⟨hcM, h.mines_sub⟩
  · exact h.safes_no
  · intro s' hs'
    rw [show (ai.mark_mine c).knowledge =
        ai.knowledge.map (fun s => s.mark_mine c) from rfl, List.mem_map] at hs'
    obtain ⟨s, hsmem, rfl⟩ := hs'
    exact exactS_mark_mine M s c hcM (h.exact_all s hsmem)
  · intro s' hs' n hn
    rw [show (ai.mark_mine c).knowledge =
        ai.knowledge.map (fun s => s.mark_mine c) from rfl, List.mem_map] at hs'
    obtain ⟨s, hsmem, rfl⟩ := hs'
    have hn' := mark_mine_cells s c hn
    rw [Finset.mem_erase] at hn'
    have hold := h.nf s hsmem n hn'.2
    refine ⟨?_, hold.2⟩
    rw [show (ai.mark_mine c).mines = insert c ai.mines from rfl,
      Finset.mem_insert]
    rintro (rfl | hbad)
    · exact hn'.1 rfl
    · exact hold.1 hbad

theorem mark_safe_inv (M : Finset Cell) (ai : MinesweeperAI) (c : Cell)
    (hcM : c ∉ M) (h : EngineInv M ai) : EngineInv M (ai.mark_safe c) := by
  constructor
  · exact h.mines_sub
  · intro c' hc'
    rw [show (ai.mark_safe c).safes = insert c ai.safes from rfl,
      Finset.mem_insert] at hc'
    rcases hc' with rfl | hc'
    · exact hcM
    · exact h.safes_no c' hc'
  · intro s' hs'
    rw [show (ai.mark_safe c).knowledge =
        ai.knowledge.map (fun s => s.mark_safe c) from rfl, List.mem_map] at hs'
    obtain ⟨s, hsmem, rfl⟩ := hs'
    exact exactS_mark_safe M s c hcM (h.exact_all s hsmem)
  · intro s' hs' n hn
    rw [show (ai.mark_safe c).knowledge =
        ai.knowledge.map (fun s => s.mark_safe c) from rfl, List.mem_map] at hs'
    obtain ⟨s, hsmem, rfl⟩ := hs'
    have hn' := mark_safe_cells s c hn
    rw [Finset.mem_erase] at hn'
    have hold := h.nf s hsmem n hn'.2
    refine ⟨hold.1, ?_⟩
    rw [show (ai.mark_safe c).safes = insert c ai.safes from rfl,
      Finset.mem_insert]
    rintro (rfl | hbad)
    · exact hn'.1 rfl
    · exact hold.2 hbad

theorem mark_mine_evolves (ai : MinesweeperAI) (c : Cell)
    (hc : c ∉ ai.safes) : Evolves ai (ai.mark_mine c) := by
  refine ⟨rfl, rfl, Finset.subset_insert _ _, Finset.Subset.refl _, ?_⟩
  intro X k hmem
  rw [← simplest_mark_mine ai c hc X k]
  exact List.mem_map_of_mem _ hmem

theorem mark_safe_evolves (ai : MinesweeperAI) (c : Cell) :
    Evolves ai (ai.mark_safe c) := by
  refine ⟨rfl, rfl, Finset.Subset.refl _, Finset.subset_insert _ _, ?_⟩
  intro X k hmem
  rw [← simplest_mark_safe ai c X k]
  exact List.mem_map_of_mem _ hmem

theorem foldl_mark_mine_master (M : Finset Cell) (cs : List Cell) :
    ∀ ai : MinesweeperAI, (∀ c ∈ cs, c ∈ M) → (∀ c ∈ cs, c ∉ ai.safes) →
      EngineInv M ai →
      EngineInv M (cs.foldl MinesweeperAI.mark_mine ai) ∧
        Evolves ai (cs.foldl MinesweeperAI.mark_mine ai) ∧
        (cs.foldl MinesweeperAI.mark_mine ai).safes = ai.safes ∧
        (cs.foldl MinesweeperAI.mark_mine ai).knowledge.length =
          ai.knowledge.length := by
  induction cs with
  | nil =>
      intro ai _ _ h
      exact ⟨h, evolves_self ai, rfl, rfl⟩
  | cons c cs ih =>
      intro ai hM hs h
      simp only [List.foldl_cons]
      have h1 : EngineInv M (ai.mark_mine c) :=
        mark_mine_inv M ai c (hM c (List.mem_cons_self _ _)) h
      have hev1 : Evolves ai (ai.mark_mine c) :=
        mark_mine_evolves ai c (hs c (List.mem_cons_self _ _))
      have hsafes1 : (ai.mark_mine c).safes = ai.safes := rfl
      have hlen1 : (ai.mark_mine c).knowledge.length = ai.knowledge.length := by
        show (ai.knowledge.map _).length = _
        rw [List.length_map]
      obtain ⟨h2, hev2, hsafes2, hlen2⟩ :=
        ih (ai.mark_mine c) (fun c' hc' => hM c' (List.mem_cons_of_mem _ hc'))
          (fun c' hc' => by
            rw [hsafes1]
            exact hs c' (List.mem_cons_of_mem _ hc')) h1
      exact ⟨h2, hev1.trans hev2, by rw [hsafes2, hsafes1],
        by rw [hlen2, hlen1]⟩

theorem foldl_mark_safe_master (M : Finset Cell) (cs : List Cell) :
    ∀ ai : MinesweeperAI, (∀ c ∈ cs, c ∉ M) →
      EngineInv M ai →
      EngineInv M (cs.foldl MinesweeperAI.mark_safe ai) ∧
        Evolves ai (cs.foldl MinesweeperAI.mark_safe ai) ∧
        (cs.foldl MinesweeperAI.mark_safe ai).knowledge.length =
          ai.knowledge.length := by
  induction cs with
  | nil =>
      intro ai _ h
      exact ⟨h, evolves_self ai, rfl⟩
  | cons c cs ih =>
      intro ai hM h
      simp only [List.foldl_cons]
      have h1 : EngineInv M (ai.mark_safe c) :=
        mark_safe_inv M ai c (hM c (List.mem_cons_self _ _)) h
      have hev1 : Evolves ai (ai.mark_safe c) := mark_safe_evolves ai c
      have hlen1 : (ai.mark_safe c).knowledge.length = ai.knowledge.length := by
        show (ai.knowledge.map _).length = _
        rw [List.length_map]
      obtain ⟨h2, hev2, hlen2⟩ :=
        ih (ai.mark_safe c) (fun c' hc' => hM c' (List.mem_cons_of_mem _ hc')) h1
      exact ⟨h2, hev1.trans hev2, by rw [hlen2, hlen1]⟩

theorem mark_mines_step_master (M : Finset Cell) (ai : MinesweeperAI) (i : ℕ)
    (h : EngineInv M ai) :
    EngineInv M (MinesweeperAI.mark_mines_step ai i) ∧
      Evolves ai (MinesweeperAI.mark_mines_step ai i) ∧
      (MinesweeperAI.mark_mines_step ai i).knowledge.length =
        ai.knowledge.length := by
  unfold MinesweeperAI.mark_mines_step
  by_cases hi : i < ai.knowledge.length
  · have hmem : ai.knowledge.getD i ⟨∅, 0⟩ ∈ ai.knowledge := by
      rw [List.getD_eq_getElem _ _ hi]
      exact List.getElem_mem _
    have hexact := h.exact_all _ hmem
    have hnf := h.nf _ hmem
    obtain ⟨h1, h2, _, h4⟩ :=
      foldl_mark_mine_master M
        (cellList (ai.knowledge.getD i ⟨∅, 0⟩).known_mines) ai
        (fun c hc =>
          known_mines_in_M M _ hexact c ((mem_cellList _ c).mp hc))
        (fun c hc =>
          (hnf c (known_mines_subset_cells _ ((mem_cellList _ c).mp hc))).2)
        h
    exact ⟨h1, h2, h4⟩
  · rw [List.getD_eq_default _ _ (le_of_not_lt hi)]
    have hkm : (Sentence.mk ∅ 0).known_mines = ∅ := by
      unfold Sentence.known_mines
      rw [if_neg]
      rintro ⟨-, hbad⟩
      exact lt_irrefl 0 hbad
    rw [hkm, show cellList ∅ = [] from rfl, List.foldl_nil]
    exact ⟨h, evolves_self ai, rfl⟩

theorem mark_safes_step_master (M : Finset Cell) (ai : MinesweeperAI) (i : ℕ)
    (h : EngineInv M ai) :
    EngineInv M (MinesweeperAI.mark_safes_step ai i) ∧
      Evolves ai (MinesweeperAI.mark_safes_step ai i) ∧
      (MinesweeperAI.mark_safes_step ai i).knowledge.length =
        ai.knowledge.length := by
  unfold MinesweeperAI.mark_safes_step
  by_cases hi : i < ai.knowledge.length
  · have hmem : ai.knowledge.getD i ⟨∅, 0⟩ ∈ ai.knowledge := by
      rw [List.getD_eq_getElem _ _ hi]
      exact List.getElem_mem _
    have hexact := h.exact_all _ hmem
    exact foldl_mark_safe_master M
      (cellList (ai.knowledge.getD i ⟨∅, 0⟩).known_safes) ai
      (fun c hc =>
        known_safes_not_in_M M _ hexact c ((mem_cellList _ c).mp hc))
      h
  · rw [List.getD_eq_default _ _ (le_of_not_lt hi)]
    have hks : (Sentence.mk ∅ 0).known_safes = ∅ := by
      unfold Sentence.known_safes
      rw [if_pos rfl]
    rw [hks, show cellList ∅ = [] from rfl, List.foldl_nil]
    exact ⟨h, evolves_self ai, rfl⟩

theorem update_body_master (M : Finset Cell) (ai : MinesweeperAI) (i : ℕ)
    (h : EngineInv M ai) :
    EngineInv M (MinesweeperAI.update_known_cells_body ai i) ∧
      Evolves ai (MinesweeperAI.update_known_cells_body ai i) := by
  obtain ⟨h1, hev1, -⟩ := mark_mines_step_master M ai i h
  obtain ⟨h2, hev2, -⟩ :=
    mark_safes_step_master M (MinesweeperAI.mark_mines_step ai i) i h1
  exact ⟨h2, hev1.trans hev2⟩

theorem update_master (M : Finset Cell) (ai : MinesweeperAI)
    (h : EngineInv M ai) :
    EngineInv M ai.update_known_cells ∧ Evolves ai ai.update_known_cells := by
  unfold MinesweeperAI.update_known_cells
  refine foldl_preserves
    (fun st => EngineInv M st ∧ Evolves ai st)
    MinesweeperAI.update_known_cells_body _ ai ?_ ⟨h, evolves_self ai⟩
  intro b' x _ hb'
  obtain ⟨h1, hev1⟩ := update_body_master M b' x hb'.1
  exact ⟨h1, hb'.2.trans hev1⟩

theorem subset_step_fields (ai : MinesweeperAI) (a b : Sentence) :
    (ai.subset_step a b).mines = ai.mines ∧
      (ai.subset_step a b).safes = ai.safes ∧
      (ai.subset_step a b).height = ai.height ∧
      (ai.subset_step a b).width = ai.width ∧
      ∀ s ∈ ai.knowledge, s ∈ (ai.subset_step a b).knowledge := by
  unfold MinesweeperAI.subset_step
  split_ifs with h1 h2
  · exact ⟨rfl, rfl, rfl, rfl, fun s hs => hs⟩
  · exact ⟨rfl, rfl, rfl, rfl, fun s hs => List.mem_append_left _ hs⟩
  · exact ⟨rfl, rfl, rfl, rfl, fun s hs => hs⟩

theorem subset_step_evolves (ai : MinesweeperAI) (a b : Sentence) :
    Evolves ai (ai.subset_step a b) := by
  obtain ⟨hm, hs, hh, hw, hk⟩ := subset_step_fields ai a b
  refine ⟨hh, hw, by rw [hm], by rw [hs], ?_⟩
  intro X k hmem
  rw [simplest_congr (ai.subset_step a b) ai (by rw [hm]) (by rw [hs]) X k]
  exact hk _ hmem

theorem card_inter_sdiff (A B M : Finset Cell) (hAB : A ⊆ B) :
    ((B \ A) ∩ M).card = (B ∩ M).card - (A ∩ M).card := by
  have h1 : (B \ A) ∩ M = (B ∩ M) \ (A ∩ M) := by
    ext n
    simp only [Finset.mem_sdiff, Finset.mem_inter]
    tauto
  have h2 : A ∩ M ⊆ B ∩ M :=
    Finset.inter_subset_inter hAB (Finset.Subset.refl M)
  rw [h1, Finset.card_sdiff h2]

theorem simplest_exact (M : Finset Cell) (ai : MinesweeperAI)
    (X : Finset Cell) (k : ℤ) (hmines : ai.mines ⊆ M)
    (hsafes : ∀ c ∈ ai.safes, c ∉ M) (hk : k = ((X ∩ M).card : ℤ)) :
    exactS M (ai.simplest_sentence X k) := by
  show k - ((X.filter (fun n => n ∈ ai.mines)).card : ℤ) =
    (((X.filter (fun n => ¬(n ∈ ai.mines ∨ n ∈ ai.safes))) ∩ M).card : ℤ)
  have h2 : (X.filter (fun n => ¬(n ∈ ai.mines ∨ n ∈ ai.safes))) ∩ M =
      (X ∩ M) \ (X ∩ ai.mines) := by
    ext n
    simp only [Finset.mem_filter, Finset.mem_inter, Finset.mem_sdiff, not_or]
    constructor
    · rintro ⟨⟨hX, hm, -⟩, hM⟩
      exact ⟨⟨hX, hM⟩, fun hx => hm hx.2⟩
    · rintro ⟨⟨hX, hM⟩, hnm⟩
      exact ⟨⟨hX, fun hm => hnm ⟨hX, hm⟩, fun hs => hsafes n hs hM⟩, hM⟩
  have hfil : X.filter (fun n => n ∈ ai.mines) = X ∩ ai.mines := by
    ext n
    simp [Finset.mem_filter, Finset.mem_inter]
  have h3 : X ∩ ai.mines ⊆ X ∩ M :=
    Finset.inter_subset_inter (Finset.Subset.refl X) hmines
  have h4 : (X ∩ ai.mines).card ≤ (X ∩ M).card := Finset.card_le_card h3
  rw [hk, h2, Finset.card_sdiff h3, hfil]
  omega

theorem subset_step_inv (M : Finset Cell) (ai : MinesweeperAI)
    (a b : Sentence) (hex_a : exactS M a) (hex_b : exactS M b)
    (h : EngineInv M ai) : EngineInv M (ai.subset_step a b) := by
  unfold MinesweeperAI.subset_step
  split_ifs with h1 h2
  · exact h
  · constructor
    · exact h.mines_sub
    · exact h.safes_no
    · intro s hs
      rw [show ({ ai with knowledge :=
          ai.knowledge ++ [ai.create_simplest_sentence a b] } :
            MinesweeperAI).knowledge =
          ai.knowledge ++ [ai.create_simplest_sentence a b] from rfl,
        List.mem_append, List.mem_singleton] at hs
      rcases hs with hs | rfl
      · exact h.exact_all s hs
      · unfold MinesweeperAI.create_simplest_sentence
        apply simplest_exact M ai _ _ h.mines_sub h.safes_no
        rw [card_inter_sdiff a.cells b.cells M h1.2]
        have h4 : (a.cells ∩ M).card ≤ (b.cells ∩ M).card :=
          Finset.card_le_card
            (Finset.inter_subset_inter h1.2 (Finset.Subset.refl M))
        unfold exactS at hex_a hex_b
        omega
    · intro s hs n hn
      rw [show ({ ai with knowledge :=
          ai.knowledge ++ [ai.create_simplest_sentence a b] } :
            MinesweeperAI).knowledge =
          ai.knowledge ++ [ai.create_simplest_sentence a b] from rfl,
        List.mem_append, List.mem_singleton] at hs
      rcases hs with hs | rfl
      · exact h.nf s hs n hn
      · have : n ∈ (b.cells \ a.cells).filter
            (fun x => ¬(x ∈ ai.mines ∨ x ∈ ai.safes)) := hn
        rw [Finset.mem_filter, not_or] at this
        exact this.2
  · exact h

theorem subset_fold_fields {α : Type} (f : MinesweeperAI → α → MinesweeperAI)
    (hf : ∀ (st : MinesweeperAI) (x : α), (f st x).mines = st.mines ∧
      (f st x).safes = st.safes ∧ ∀ s ∈ st.knowledge, s ∈ (f st x).knowledge) :
    ∀ (l : List α) (st : MinesweeperAI),
      (l.foldl f st).mines = st.mines ∧ (l.foldl f st).safes = st.safes ∧
        ∀ s ∈ st.knowledge, s ∈ (l.foldl f st).knowledge := by
  intro l
  induction l with
  | nil => exact fun st => ⟨rfl, rfl, fun s hs => hs⟩
  | cons x xs ih =>
      intro st
      obtain ⟨hm, hs, hk⟩ := ih (f st x)
      obtain ⟨hm0, hs0, hk0⟩ := hf st x
      exact ⟨hm.trans hm0, hs.trans hs0, fun s hmem => hk s (hk0 s hmem)⟩

theorem inner_fold_fields (a : Sentence) (l : List Sentence)
    (st : MinesweeperAI) :
    (l.foldl (fun acc2 other => acc2.subset_step a other) st).mines = st.mines ∧
      (l.foldl (fun acc2 other => acc2.subset_step a other) st).safes =
        st.safes ∧
      ∀ s ∈ st.knowledge,
        s ∈ (l.foldl (fun acc2 other => acc2.subset_step a other) st).knowledge :=
  subset_fold_fields _
    (fun st' x =>
      ⟨(subset_step_fields st' a x).1, (subset_step_fields st' a x).2.1,
        (subset_step_fields st' a x).2.2.2.2⟩) l st

theorem inner_fold_pair (a b : Sentence) (hne : a ≠ b)
    (hsub : a.cells ⊆ b.cells) :
    ∀ (l : List Sentence) (st : MinesweeperAI), b ∈ l →
      st.create_simplest_sentence a b ∈
        (l.foldl (fun acc2 other => acc2.subset_step a other) st).knowledge := by
  intro l
  induction l with
  | nil => intro st hb; cases hb
  | cons x xs ih =>
      intro st hb
      simp only [List.foldl_cons]
      by_cases hbx : b = x
      · subst hbx
        have hmem : st.create_simplest_sentence a b ∈
            (st.subset_step a b).knowledge := by
          unfold MinesweeperAI.subset_step
          rw [if_pos ⟨hne, hsub⟩]
          split_ifs with h2
          · exact h2
          · exact List.mem_append_right _ (List.mem_singleton_self _)
        have hcongr : st.create_simplest_sentence a b =
            (st.subset_step a b).create_simplest_sentence a b := by
          unfold MinesweeperAI.create_simplest_sentence
          exact simplest_congr st (st.subset_step a b)
            (subset_step_fields st a b).1.symm
            (subset_step_fields st a b).2.1.symm _ _
        rw [hcongr] at hmem ⊢
        exact (inner_fold_fields a xs (st.subset_step a b)).2.2 _ hmem
      · have hb' : b ∈ xs := by
          rcases hb with _ | hb
          · exact absurd rfl hbx
          · assumption
        have hcongr : st.create_simplest_sentence a b =
            (st.subset_step a x).create_simplest_sentence a b := by
          unfold MinesweeperAI.create_simplest_sentence
          exact simplest_congr st (st.subset_step a x)
            (subset_step_fields st a x).1.symm
            (subset_step_fields st a x).2.1.symm _ _
        rw [hcongr]
        exact ih (st.subset_step a x) hb'

theorem outer_fold_fields (pre : List Sentence) (l : List Sentence)
    (st : MinesweeperAI) :
    (l.foldl (fun acc sentence => pre.foldl
        (fun acc2 other => acc2.subset_step sentence other) acc) st).mines =
      st.mines ∧
    (l.foldl (fun acc sentence => pre.foldl
        (fun acc2 other => acc2.subset_step sentence other) acc) st).safes =
      st.safes ∧
    ∀ s ∈ st.knowledge,
      s ∈ (l.foldl (fun acc sentence => pre.foldl
        (fun acc2 other => acc2.subset_step sentence other) acc) st).knowledge :=
  subset_fold_fields _
    (fun st' x =>
      ⟨(inner_fold_fields x pre st').1, (inner_fold_fields x pre st').2.1,
        (inner_fold_fields x pre st').2.2⟩) l st

theorem outer_fold_pair (pre : List Sentence) (a b : Sentence) (hne : a ≠ b)
    (hsub : a.cells ⊆ b.cells) (hb : b ∈ pre) :
    ∀ (l : List Sentence) (st : MinesweeperAI), a ∈ l →
      st.create_simplest_sentence a b ∈
        (l.foldl (fun acc sentence => pre.foldl
          (fun acc2 other => acc2.subset_step sentence other) acc) st).knowledge := by
  intro l
  induction l with
  | nil => intro st ha; cases ha
  | cons x xs ih =>
      intro st ha
      simp only [List.foldl_cons]
      by_cases hax : a = x
      · subst hax
        have hmem : st.create_simplest_sentence a b ∈
            (pre.foldl (fun acc2 other => acc2.subset_step a other) st).knowledge :=
          inner_fold_pair a b hne hsub pre st hb
        have hinner := inner_fold_fields a pre st
        have hcongr : st.create_simplest_sentence a b =
            (pre.foldl (fun acc2 other => acc2.subset_step a other)
              st).create_simplest_sentence a b := by
          unfold MinesweeperAI.create_simplest_sentence
          exact simplest_congr _ _ hinner.1.symm hinner.2.1.symm _ _
        rw [hcongr] at hmem ⊢
        exact (outer_fold_fields pre xs _).2.2 _ hmem
      · have ha' : a ∈ xs := by
          rcases ha with _ | ha
          · exact absurd rfl hax
          · assumption
        have hinner := inner_fold_fields x pre st
        have hcongr : st.create_simplest_sentence a b =
            (pre.foldl (fun acc2 other => acc2.subset_step x other)
              st).create_simplest_sentence a b := by
          unfold MinesweeperAI.create_simplest_sentence
          exact simplest_congr _ _ hinner.1.symm hinner.2.1.symm _ _
        rw [hcongr]
        exact ih _ ha'

/-- The subset-inference pass of one `record_clue` call processes every
ordered pair of structurally distinct sentences present in the snapshot, so
the derived simplified sentence ends up in the knowledge list. -/
theorem subset_inference_pair (ai : MinesweeperAI) (a b : Sentence)
    (ha : a ∈ ai.knowledge) (hb : b ∈ ai.knowledge) (hne : a ≠ b)
    (hsub : a.cells ⊆ b.cells) :
    ai.create_simplest_sentence a b ∈
      (MinesweeperAI.subset_inference ai).knowledge :=
  outer_fold_pair ai.knowledge a b hne hsub hb ai.knowledge ai ha

theorem subset_inference_fields (ai : MinesweeperAI) :
    (MinesweeperAI.subset_inference ai).mines = ai.mines ∧
      (MinesweeperAI.subset_inference ai).safes = ai.safes ∧
      ∀ s ∈ ai.knowledge, s ∈ (MinesweeperAI.subset_inference ai).knowledge :=
  outer_fold_fields ai.knowledge ai.knowledge ai

theorem subset_inference_master (M : Finset Cell) (ai : MinesweeperAI)
    (h : EngineInv M ai) :
    EngineInv M (MinesweeperAI.subset_inference ai) ∧
      Evolves ai (MinesweeperAI.subset_inference ai) := by
  unfold MinesweeperAI.subset_inference
  refine foldl_preserves
    (fun st => EngineInv M st ∧ Evolves ai st) _ _ ai ?_ ⟨h, evolves_self ai⟩
  intro b' x hx hb'
  refine foldl_preserves
    (fun st => EngineInv M st ∧ Evolves ai st) _ _ b' ?_ hb'
  intro b'' y hy hb''
  exact ⟨subset_step_inv M b'' x y (h.exact_all x hx) (h.exact_all y hy)
      hb''.1,
    hb''.2.trans (subset_step_evolves b'' x y)⟩

/-! ## The record phase and the full `add_knowledge` call -/

theorem neighbour8_nodup (cell : Cell) :
    (MinesweeperAI.neighbour8 cell).Nodup := by
  simp [MinesweeperAI.neighbour8, Prod.ext_iff]
  omega

theorem get_neighbour_cells_nodup (ai : MinesweeperAI) (cell : Cell) :
    (ai.get_neighbour_cells cell).Nodup :=
  (neighbour8_nodup cell).filter _

theorem nearby_mines_eq_card (H W : ℕ) (M : Finset Cell) (cell : Cell)
    (ai : MinesweeperAI) (hH : ai.height = H) (hW : ai.width = W) :
    nearby_mines H W M cell =
      (((ai.get_neighbour_cells cell).toFinset ∩ M).card : ℤ) := by
  unfold nearby_mines MinesweeperAI.get_neighbour_cells
  rw [hH, hW]
  congr 1
  have heq : (((MinesweeperAI.neighbour8 cell).filter
      (fun n => decide (MinesweeperAI.inB H W n))).toFinset ∩ M) =
      (((MinesweeperAI.neighbour8 cell).filter
        (fun n => decide (MinesweeperAI.inB H W n))).filter
          (fun n => decide (n ∈ M))).toFinset := by
    ext n
    simp [List.mem_toFinset, List.mem_filter, Finset.mem_inter]
    tauto
  rw [heq]
  rw [List.toFinset_card_of_nodup
    (((neighbour8_nodup cell).filter _).filter _)]
  rw [List.filter_filter]
  congr 1
  apply List.filter_congr
  intro x _
  simp [MinesweeperAI.inB]
  exact Bool.and_comm _ _

theorem append_master (M : Finset Cell) (ai : MinesweeperAI) (cell : Cell)
    (count : ℤ)
    (hcount : count = (((ai.get_neighbour_cells cell).toFinset ∩ M).card : ℤ))
    (h : EngineInv M ai) :
    EngineInv M (ai.append_new_sentence cell count) ∧
      Evolves ai (ai.append_new_sentence cell count) := by
  constructor
  · constructor
    · exact h.mines_sub
    · exact h.safes_no
    · intro s hs
      rw [show (ai.append_new_sentence cell count).knowledge =
          ai.knowledge ++
            [ai.simplest_sentence (ai.get_neighbour_cells cell).toFinset count]
          from rfl, List.mem_append, List.mem_singleton] at hs
      rcases hs with hs | rfl
      · exact h.exact_all s hs
      · exact simplest_exact M ai _ _ h.mines_sub h.safes_no hcount
    · intro s hs n hn
      rw [show (ai.append_new_sentence cell count).knowledge =
          ai.knowledge ++
            [ai.simplest_sentence (ai.get_neighbour_cells cell).toFinset count]
          from rfl, List.mem_append, List.mem_singleton] at hs
      rcases hs with hs | rfl
      · exact h.nf s hs n hn
      · have hmem : n ∈ ((ai.get_neighbour_cells cell).toFinset).filter
            (fun x => ¬(x ∈ ai.mines ∨ x ∈ ai.safes)) := hn
        rw [Finset.mem_filter, not_or] at hmem
        exact hmem.2
  · exact ⟨rfl, rfl, Finset.Subset.refl _, Finset.Subset.refl _,
      fun X k hmem => List.mem_append_left _ hmem⟩

theorem record_master (M : Finset Cell) (ai : MinesweeperAI) (cell : Cell)
    (count : ℤ) (hcM : cell ∉ M)
    (hcount : count = (((ai.get_neighbour_cells cell).toFinset ∩ M).card : ℤ))
    (h : EngineInv M ai) :
    EngineInv M (ai.record_new_sentence cell count) ∧
      Evolves ai (ai.record_new_sentence cell count) := by
  have h0 : EngineInv M
      ({ ai with moves_made := insert cell ai.moves_made } : MinesweeperAI) :=
    ⟨h.mines_sub, h.safes_no, h.exact_all, h.nf⟩
  have e0 : Evolves ai
      ({ ai with moves_made := insert cell ai.moves_made } : MinesweeperAI) :=
    ⟨rfl, rfl, Finset.Subset.refl _, Finset.Subset.refl _, fun _ _ hm => hm⟩
  have h1 := mark_safe_inv M _ cell hcM h0
  have e1 := mark_safe_evolves
    ({ ai with moves_made := insert cell ai.moves_made } : MinesweeperAI) cell
  obtain ⟨h2, e2⟩ := append_master M
    (MinesweeperAI.mark_safe
      { ai with moves_made := insert cell ai.moves_made } cell)
    cell count hcount h1
  exact ⟨h2, (e0.trans e1).trans e2⟩

theorem add_knowledge_master (M : Finset Cell) (ai : MinesweeperAI)
    (cell : Cell) (count : ℤ) (hcM : cell ∉ M)
    (hcount : count = (((ai.get_neighbour_cells cell).toFinset ∩ M).card : ℤ))
    (h : EngineInv M ai) :
    EngineInv M (ai.add_knowledge cell count) ∧
      Evolves ai (ai.add_knowledge cell count) := by
  obtain ⟨h1, e1⟩ := record_master M ai cell count hcM hcount h
  obtain ⟨h2, e2⟩ := update_master M _ h1
  obtain ⟨h3, e3⟩ := subset_inference_master M _ h2
  obtain ⟨h4, e4⟩ := update_master M _ h3
  exact ⟨h4, ((e1.trans e2).trans e3).trans e4⟩

theorem reachable_master (H W : ℕ) (M : Finset Cell) (ai : MinesweeperAI)
    (h : Reachable H W M ai) :
    EngineInv M ai ∧ ai.height = H ∧ ai.width = W := by
  induction h with
  | init =>
      refine ⟨⟨Finset.empty_subset M, ?_, ?_, ?_⟩, rfl, rfl⟩
      · intro c hc
        exact absurd hc (Finset.not_mem_empty c)
      · intro s hs
        exact absurd hs (List.not_mem_nil s)
      · intro s hs
        exact absurd hs (List.not_mem_nil s)
  | step ai cell hr hin hnm hmoves ih =>
      obtain ⟨hInv, hH, hW⟩ := ih
      obtain ⟨h', e'⟩ := add_knowledge_master M ai cell _ hnm
        (nearby_mines_eq_card H W M cell ai hH hW) hInv
      exact ⟨h', e'.height_eq.trans hH, e'.width_eq.trans hW⟩

/-! ## Claims C4, C5 and C7: invariants of reachable states -/

/-- C4: in every engine state reachable under the driver contract (each
`record_clue` probes an in-bounds, previously unprobed, non-mine cell and
reports the true neighbouring-mine count of the fixed board `M`), every
sentence of the knowledge base — including every subset-derived sentence and
every sentence shrunk by `mark_mine`/`mark_safe` — satisfies
`0 ≤ count ≤ |cells|`. -/
theorem C4_sentence_invariant (H W : ℕ) (M : Finset Cell)
    (ai : MinesweeperAI) (h : Reachable H W M ai) (s : Sentence)
    (hs : s ∈ ai.knowledge) :
    0 ≤ s.count ∧ s.count ≤ (s.cells.card : ℤ) := by
  have hex := (reachable_master H W M ai h).1.exact_all s hs
  unfold exactS at hex
  have hle : (s.cells ∩ M).card ≤ s.cells.card :=
    Finset.card_le_card Finset.inter_subset_left
  omega

/-- Board and state for the invariant witnesses: one probe at `(0,0)` on a
2-by-2 board whose only mine is `(1,1)` leaves the sentence
`{(0,1),(1,0),(1,1)} = 1` in the knowledge base. -/
def c4wit_board : Finset Cell := {(1, 1)}

def c4wit_state : MinesweeperAI :=
  (MinesweeperAI.init 2 2).add_knowledge (0, 0) (nearby_mines 2 2 c4wit_board (0, 0))

def c4wit_sentence : Sentence := ⟨{(0, 1), (1, 0), (1, 1)}, 1⟩

/-- Witness for `C4_sentence_invariant` at a concrete reachable state. -/
theorem C4_sentence_invariant_witness :
    0 ≤ c4wit_sentence.count ∧
      c4wit_sentence.count ≤ (c4wit_sentence.cells.card : ℤ) :=
  C4_sentence_invariant 2 2 c4wit_board c4wit_state
    (Reachable.step _ _ Reachable.init (by decide) (by decide) (by decide))
    c4wit_sentence (by decide)

/-- C5: in every engine state reachable under the driver contract (clue
counts consistent with the one real board `M`), the sets of known mines and
known safes are disjoint. -/
theorem C5_disjoint (H W : ℕ) (M : Finset Cell) (ai : MinesweeperAI)
    (h : Reachable H W M ai) : ai.mines ∩ ai.safes = ∅ := by
  have hInv := (reachable_master H W M ai h).1
  ext c
  simp only [Finset.mem_inter, Finset.not_mem_empty, iff_false, not_and]
  intro hm hs
  exact hInv.safes_no c hs (hInv.mines_sub hm)

/-- Witness for `C5_disjoint` at a concrete reachable state. -/
theorem C5_disjoint_witness : c4wit_state.mines ∩ c4wit_state.safes = ∅ :=
  C5_disjoint 2 2 c4wit_board c4wit_state
    (Reachable.step _ _ Reachable.init (by decide) (by decide) (by decide))

/-- C7: in every reachable engine state every sentence mentions only
undetermined cells: its cell set is disjoint from `mines ∪ safes`.  The
normal form is established for newly recorded and subset-derived sentences
by the normalization of `create_simplest_cell_subset`, and restored by the
engine-level `mark_mine`/`mark_safe` whenever a cell becomes known. -/
theorem C7_undetermined_only (H W : ℕ) (M : Finset Cell)
    (ai : MinesweeperAI) (h : Reachable H W M ai) (s : Sentence)
    (hs : s ∈ ai.knowledge) :
    s.cells ∩ (ai.mines ∪ ai.safes) = ∅ := by
  have hInv := (reachable_master H W M ai h).1
  ext c
  simp only [Finset.mem_inter, Finset.mem_union, Finset.not_mem_empty,
    iff_false, not_and]
  intro hc hcon
  rcases hcon with hcm | hcs
  · exact (hInv.nf s hs c hc).1 hcm
  · exact (hInv.nf s hs c hc).2 hcs

/-- Witness for `C7_undetermined_only` at a concrete reachable state. -/
theorem C7_undetermined_only_witness :
    c4wit_sentence.cells ∩ (c4wit_state.mines ∪ c4wit_state.safes) = ∅ :=
  C7_undetermined_only 2 2 c4wit_board c4wit_state
    (Reachable.step _ _ Reachable.init (by decide) (by decide) (by decide))
    c4wit_sentence (by decide)

/-! ## Claim C6: subset-closure soundness -/

theorem filter_mem_inter (X m : Finset Cell) :
    X.filter (fun n => n ∈ m) = X ∩ m := by
  ext n
  simp [Finset.mem_filter, Finset.mem_inter]

theorem nf_simplest_self (ai : MinesweeperAI) (s : Sentence)
    (hnf : ∀ c ∈ s.cells, c ∉ ai.mines ∧ c ∉ ai.safes) :
    ai.simplest_sentence s.cells s.count = s := by
  refine congrArg₂ Sentence.mk ?_ ?_
  · exact Finset.filter_true_of_mem
      (fun c hc => not_or.mpr ⟨(hnf c hc).1, (hnf c hc).2⟩)
  · show s.count - ((s.cells.filter (fun n => n ∈ ai.mines)).card : ℤ) = s.count
    rw [Finset.filter_false_of_mem (fun c hc => (hnf c hc).1)]
    simp

theorem filter_sdiff_filter (ai : MinesweeperAI) (A B : Finset Cell) :
    B.filter (fun n => ¬(n ∈ ai.mines ∨ n ∈ ai.safes)) \
        A.filter (fun n => ¬(n ∈ ai.mines ∨ n ∈ ai.safes)) =
      (B \ A).filter (fun n => ¬(n ∈ ai.mines ∨ n ∈ ai.safes)) := by
  ext n
  simp only [Finset.mem_sdiff, Finset.mem_filter, not_or]
  tauto

theorem simplest_diff (ai : MinesweeperAI) (A B : Sentence)
    (hsub : A.cells ⊆ B.cells) :
    ai.create_simplest_sentence (ai.simplest_sentence A.cells A.count)
        (ai.simplest_sentence B.cells B.count) =
      ai.simplest_sentence (B.cells \ A.cells) (B.count - A.count) := by
  have hcells : (ai.simplest_sentence B.cells B.count).cells \
      (ai.simplest_sentence A.cells A.count).cells =
      (B.cells \ A.cells).filter (fun n => ¬(n ∈ ai.mines ∨ n ∈ ai.safes)) :=
    filter_sdiff_filter ai A.cells B.cells
  unfold MinesweeperAI.create_simplest_sentence
  rw [hcells]
  have hself : ai.simplest_sentence
      ((B.cells \ A.cells).filter (fun n => ¬(n ∈ ai.mines ∨ n ∈ ai.safes)))
      ((ai.simplest_sentence B.cells B.count).count -
        (ai.simplest_sentence A.cells A.count).count) =
      ⟨(B.cells \ A.cells).filter (fun n => ¬(n ∈ ai.mines ∨ n ∈ ai.safes)),
       (ai.simplest_sentence B.cells B.count).count -
         (ai.simplest_sentence A.cells A.count).count⟩ := by
    refine nf_simplest_self ai
      ⟨(B.cells \ A.cells).filter (fun n => ¬(n ∈ ai.mines ∨ n ∈ ai.safes)),
       (ai.simplest_sentence B.cells B.count).count -
         (ai.simplest_sentence A.cells A.count).count⟩ ?_
    intro c hc
    rw [Finset.mem_filter, not_or] at hc
    exact hc.2
  rw [hself]
  refine congrArg₂ Sentence.mk rfl ?_
  show (ai.simplest_sentence B.cells B.count).count -
      (ai.simplest_sentence A.cells A.count).count =
    B.count - A.count -
      (((B.cells \ A.cells).filter (fun n => n ∈ ai.mines)).card : ℤ)
  show B.count - ((B.cells.filter (fun n => n ∈ ai.mines)).card : ℤ) -
      (A.count - ((A.cells.filter (fun n => n ∈ ai.mines)).card : ℤ)) = _
  rw [filter_mem_inter, filter_mem_inter, filter_mem_inter,
    card_inter_sdiff A.cells B.cells ai.mines hsub]
  have hle : (A.cells ∩ ai.mines).card ≤ (B.cells ∩ ai.mines).card :=
    Finset.card_le_card
      (Finset.inter_subset_inter hsub (Finset.Subset.refl _))
  omega

theorem empty_cells_no_facts (s : Sentence) (h : s.cells = ∅) :
    s.known_mines = ∅ ∧ s.known_safes = ∅ := by
  constructor
  · unfold Sentence.known_mines
    split
    case isTrue hif =>
      exact h
    case isFalse => rfl
  · unfold Sentence.known_safes
    split
    case isTrue => exact h
    case isFalse => rfl

/-- C6: in a reachable engine state, for every pair of sentences `A`, `B` in
the knowledge base with `A.cells ⊆ B.cells`, after one more
contract-respecting `record_clue` call the sentence
`(B.cells − A.cells, B.count − A.count)`, normalized per step 5b against
the final `mines`/`safes`, is present in the knowledge base, or its facts
(its `known_mines` and `known_safes`) have already been absorbed into
`mines`/`safes`. -/
theorem C6_subset_closure (H W : ℕ) (M : Finset Cell) (ai : MinesweeperAI)
    (h : Reachable H W M ai) (A B : Sentence)
    (hA : A ∈ ai.knowledge) (hB : B ∈ ai.knowledge)
    (hsub : A.cells ⊆ B.cells) (cell : Cell)
    (hin : MinesweeperAI.inB H W cell) (hnm : cell ∉ M)
    (hmoves : cell ∉ ai.moves_made) :
    (ai.add_knowledge cell (nearby_mines H W M cell)).simplest_sentence
        (B.cells \ A.cells) (B.count - A.count) ∈
      (ai.add_knowledge cell (nearby_mines H W M cell)).knowledge ∨
    (((ai.add_knowledge cell (nearby_mines H W M cell)).simplest_sentence
          (B.cells \ A.cells) (B.count - A.count)).known_mines ⊆
        (ai.add_knowledge cell (nearby_mines H W M cell)).mines ∧
      ((ai.add_knowledge cell (nearby_mines H W M cell)).simplest_sentence
          (B.cells \ A.cells) (B.count - A.count)).known_safes ⊆
        (ai.add_knowledge cell (nearby_mines H W M cell)).safes) := by
  obtain ⟨hInv, hH, hW⟩ := reachable_master H W M ai h
  set n := nearby_mines H W M cell with hn
  have hcount : n = (((ai.get_neighbour_cells cell).toFinset ∩ M).card : ℤ) :=
    nearby_mines_eq_card H W M cell ai hH hW
  obtain ⟨hInv3, e13⟩ := record_master M ai cell n hnm hcount hInv
  obtain ⟨hInv4, e34⟩ :=
    update_master M (ai.record_new_sentence cell n) hInv3
  obtain ⟨hInv5, e45⟩ := subset_inference_master M
    (MinesweeperAI.update_known_cells (ai.record_new_sentence cell n)) hInv4
  obtain ⟨hInv6, e56⟩ := update_master M
    (MinesweeperAI.subset_inference
      (MinesweeperAI.update_known_cells (ai.record_new_sentence cell n)))
    hInv5
  have e14 : Evolves ai
      (MinesweeperAI.update_known_cells (ai.record_new_sentence cell n)) :=
    e13.trans e34
  have hAform : ai.simplest_sentence A.cells A.count ∈ ai.knowledge := by
    rw [nf_simplest_self ai A (hInv.nf A hA)]
    exact hA
  have hBform : ai.simplest_sentence B.cells B.count ∈ ai.knowledge := by
    rw [nf_simplest_self ai B (hInv.nf B hB)]
    exact hB
  have hA4 := e14.form A.cells A.count hAform
  have hB4 := e14.form B.cells B.count hBform
  by_cases hAB4 :
      (MinesweeperAI.update_known_cells
        (ai.record_new_sentence cell n)).simplest_sentence A.cells A.count =
      (MinesweeperAI.update_known_cells
        (ai.record_new_sentence cell n)).simplest_sentence B.cells B.count
  · right
    set ai4 := MinesweeperAI.update_known_cells (ai.record_new_sentence cell n)
      with hai4
    have h0 : B.cells.filter (fun c => ¬(c ∈ ai4.mines ∨ c ∈ ai4.safes)) \
        A.cells.filter (fun c => ¬(c ∈ ai4.mines ∨ c ∈ ai4.safes)) = ∅ := by
      have hcc : (ai4.simplest_sentence B.cells B.count).cells =
          (ai4.simplest_sentence A.cells A.count).cells :=
        congrArg Sentence.cells hAB4.symm
      show (ai4.simplest_sentence B.cells B.count).cells \
        (ai4.simplest_sentence A.cells A.count).cells = ∅
      rw [hcc, Finset.sdiff_self]
    have hX4 : (B.cells \ A.cells).filter
        (fun c => ¬(c ∈ ai4.mines ∨ c ∈ ai4.safes)) = ∅ := by
      rw [← filter_sdiff_filter ai4 A.cells B.cells]
      exact h0
    have hm46 : ai4.mines ⊆
        (ai.add_knowledge cell n).mines := (e45.trans e56).mines_mono
    have hs46 : ai4.safes ⊆
        (ai.add_knowledge cell n).safes := (e45.trans e56).safes_mono
    have hX6 : (B.cells \ A.cells).filter
        (fun c => ¬(c ∈ (ai.add_knowledge cell n).mines ∨
          c ∈ (ai.add_knowledge cell n).safes)) = ∅ := by
      rw [Finset.filter_eq_empty_iff] at hX4 ⊢
      intro c' hc' hcon
      have h4 := not_not.mp (hX4 hc')
      rcases h4 with h4 | h4
      · exact hcon (Or.inl (hm46 h4))
      · exact hcon (Or.inr (hs46 h4))
    have hfacts := empty_cells_no_facts
      ((ai.add_knowledge cell n).simplest_sentence
        (B.cells \ A.cells) (B.count - A.count)) hX6
    constructor
    · rw [hfacts.1]
      exact Finset.empty_subset _
    · rw [hfacts.2]
      exact Finset.empty_subset _
  · left
    have hsub4 : ((MinesweeperAI.update_known_cells
        (ai.record_new_sentence cell n)).simplest_sentence
          A.cells A.count).cells ⊆
        ((MinesweeperAI.update_known_cells
          (ai.record_new_sentence cell n)).simplest_sentence
            B.cells B.count).cells :=
      Finset.filter_subset_filter _ hsub
    have hpair := subset_inference_pair
      (MinesweeperAI.update_known_cells (ai.record_new_sentence cell n))
      _ _ hA4 hB4 hAB4 hsub4
    rw [simplest_diff
      (MinesweeperAI.update_known_cells (ai.record_new_sentence cell n))
      A B hsub] at hpair
    have hfields := subset_inference_fields
      (MinesweeperAI.update_known_cells (ai.record_new_sentence cell n))
    have h5 : (MinesweeperAI.subset_inference
        (MinesweeperAI.update_known_cells
          (ai.record_new_sentence cell n))).simplest_sentence
        (B.cells \ A.cells) (B.count - A.count) ∈
        (MinesweeperAI.subset_inference
          (MinesweeperAI.update_known_cells
            (ai.record_new_sentence cell n))).knowledge := by
      rw [simplest_congr
        (MinesweeperAI.subset_inference
          (MinesweeperAI.update_known_cells (ai.record_new_sentence cell n)))
        (MinesweeperAI.update_known_cells (ai.record_new_sentence cell n))
        hfields.1 hfields.2.1]
      exact hpair
    exact e56.form (B.cells \ A.cells) (B.count - A.count) h5

/-- Witness for `C6_subset_closure` at a concrete reachable state (the pair
`A = B` given by the single recorded sentence, followed by the probe of
`(0,1)`). -/
theorem C6_subset_closure_witness :
    (c4wit_state.add_knowledge (0, 1)
        (nearby_mines 2 2 c4wit_board (0, 1))).simplest_sentence
        (c4wit_sentence.cells \ c4wit_sentence.cells)
        (c4wit_sentence.count - c4wit_sentence.count) ∈
      (c4wit_state.add_knowledge (0, 1)
        (nearby_mines 2 2 c4wit_board (0, 1))).knowledge ∨
    (((c4wit_state.add_knowledge (0, 1)
          (nearby_mines 2 2 c4wit_board (0, 1))).simplest_sentence
          (c4wit_sentence.cells \ c4wit_sentence.cells)
          (c4wit_sentence.count - c4wit_sentence.count)).known_mines ⊆
        (c4wit_state.add_knowledge (0, 1)
          (nearby_mines 2 2 c4wit_board (0, 1))).mines ∧
      ((c4wit_state.add_knowledge (0, 1)
          (nearby_mines 2 2 c4wit_board (0, 1))).simplest_sentence
          (c4wit_sentence.cells \ c4wit_sentence.cells)
          (c4wit_sentence.count - c4wit_sentence.count)).known_safes ⊆
        (c4wit_state.add_knowledge (0, 1)
          (nearby_mines 2 2 c4wit_board (0, 1))).safes) :=
  C6_subset_closure 2 2 c4wit_board c4wit_state
    (Reachable.step _ _ Reachable.init (by decide) (by decide) (by decide))
    c4wit_sentence c4wit_sentence (by decide) (by decide)
    (Finset.Subset.refl _) (0, 1) (by decide) (by decide) (by decide)
